import Mathlib

/-
  Verification of the caching and job-queue core of the system-design
  repository (src/api/app/caching.py, src/api/app/queue.py,
  src/api/app/settings.py), as a shallow embedding in Lean 4.

  Modelling conventions:
  * Machine time (Python time.time, a float) is modelled as an integer
    instant passed explicitly into every operation; a TTL is an integer
    number of seconds, matching the ttl_seconds : Optional[int] signature.
  * Python OrderedDict is modelled as an association list whose order is
    recency of insertion/touch (head = least recently used, tail = most
    recently used) and whose keys are pairwise distinct; the key
    distinctness invariant of OrderedDict is proved preserved below.
  * async functions suspend only at await points, so code between two
    awaits runs atomically; mutable state is threaded explicitly and the
    per-instance asyncio.Lock makes each get/set one atomic step.
-/

namespace SystemDesign

/-- Python scalar values that can appear in a cache value or a job payload.
    Python bool is a distinct constructor here, but note that in Python
    bool is a subtype of int, which the isinstance checks below honour. -/
inductive PyValue
  | pyInt (n : Int)
  | pyFloat (q : ℚ)
  | pyBool (b : Bool)
  | pyStr (s : String)
  | pyNone
deriving DecidableEq, Repr

/-- caching.py, dataclass _Entry: a cached value plus an optional absolute
    expiry instant (None means the entry never expires on its own). -/
structure Entry (V : Type) where
  value : V
  expires_at : Option Int
deriving DecidableEq, Repr

/-- An entry is expired at instant now when it has an expiry instant and
    that instant is at or before now (caching.py line 41: e.expires_at is
    not None and e.expires_at <= now). -/
def Entry.expired {V : Type} (e : Entry V) (now : Int) : Bool :=
  match e.expires_at with
  | none => false
  | some t => decide (t ≤ now)

/-- caching.py, MemoryTTLCache: the OrderedDict store (head = LRU end,
    tail = MRU end) together with the configured capacity bound. -/
structure MemoryTTLCache (V : Type) where
  store : List (String × Entry V)
  max_items : Nat
deriving DecidableEq, Repr

/-- First-match association-list lookup, the `key in self._store` /
    `self._store[key]` pair of OrderedDict operations. -/
def lookupKey {V : Type} (key : String) : List (String × Entry V) → Option (Entry V)
  | [] => none
  | (k, e) :: rest => if k = key then some e else lookupKey key rest

/-- OrderedDict pop of a key: removes the binding of `key` when present
    (keys are unique in an OrderedDict, so removing the first match is
    removing the binding), leaves the list unchanged otherwise. -/
def eraseKey {V : Type} (key : String) : List (String × Entry V) → List (String × Entry V)
  | [] => []
  | (k, e) :: rest => if k = key then rest else (k, e) :: eraseKey key rest

/-- caching.py lines 39-43, MemoryTTLCache._purge_expired: drop every
    entry whose expiry instant has passed. The Python code collects the
    expired keys and pops each; with OrderedDict's unique keys that is
    exactly a filter keeping the unexpired entries, in order. -/
def purgeExpired {V : Type} (now : Int) (s : List (String × Entry V)) :
    List (String × Entry V) :=
  s.filter (fun p => ! p.2.expired now)

/-- caching.py lines 35-37, MemoryTTLCache._evict_if_needed:
    while len(store) > max_items: popitem(last=False), i.e. drop from the
    least-recently-used end until the size bound holds. -/
def evictIfNeeded {V : Type} (maxItems : Nat) :
    List (String × Entry V) → List (String × Entry V)
  | [] => []
  | p :: rest =>
    if maxItems < (p :: rest).length then evictIfNeeded maxItems rest
    else p :: rest

/-- caching.py lines 45-53, MemoryTTLCache.get: purge expired entries,
    then if the key is present pop it and re-insert it at the MRU end and
    return its value, otherwise return None. The function is total: a
    missing key yields none, never an error. -/
def MemoryTTLCache.get {V : Type} (c : MemoryTTLCache V) (now : Int) (key : String) :
    Option V × MemoryTTLCache V :=
  let s := purgeExpired now c.store
  match lookupKey key s with
  | some e => (some e.value, ⟨eraseKey key s ++ [(key, e)], c.max_items⟩)
  | none => (none, ⟨s, c.max_items⟩)

/-- caching.py line 56: expires_at = time.time() + ttl_seconds if
    ttl_seconds else None. Python truthiness: ttl_seconds is falsy when it
    is None or 0, so only a nonzero provided ttl produces an expiry
    instant — including a negative ttl, which yields an instant in the
    past. -/
def ttlExpiry (now : Int) : Option Int → Option Int
  | some t => if t = 0 then none else some (now + t)
  | none => none

/-- caching.py lines 55-61, MemoryTTLCache.set: compute the expiry
    instant, pop any existing binding of the key, insert the fresh entry
    at the MRU end, then evict from the LRU end while over capacity. -/
def MemoryTTLCache.set {V : Type} (c : MemoryTTLCache V) (now : Int) (key : String)
    (value : V) (ttl_seconds : Option Int) : MemoryTTLCache V :=
  ⟨evictIfNeeded c.max_items
      (eraseKey key c.store ++ [(key, Entry.mk value (ttlExpiry now ttl_seconds))]),
   c.max_items⟩

/-- One cache call, tagged with the instant at which it runs. -/
inductive CacheOp (V : Type)
  | opGet (now : Int) (key : String)
  | opSet (now : Int) (key : String) (value : V) (ttl_seconds : Option Int)

/-- Apply one call to the cache state (get's returned value is dropped,
    only the state evolution matters here). -/
def MemoryTTLCache.applyOp {V : Type} (c : MemoryTTLCache V) : CacheOp V → MemoryTTLCache V
  | .opGet now key => (c.get now key).2
  | .opSet now key v ttl => c.set now key v ttl

/-- Run a sequence of cache calls from the freshly constructed cache
    (caching.py line 30: the store starts empty). -/
def MemoryTTLCache.runOps {V : Type} (maxItems : Nat) (ops : List (CacheOp V)) :
    MemoryTTLCache V :=
  ops.foldl MemoryTTLCache.applyOp ⟨[], maxItems⟩

/-! Association-list lemmas about the OrderedDict model. -/

theorem lookupKey_of_not_mem {V : Type} {key : String} {l : List (String × Entry V)}
    (h : key ∉ l.map Prod.fst) : lookupKey key l = none := by
  induction l with
  | nil => rfl
  | cons p rest ih =>
    rcases p with ⟨k, e⟩
    simp only [List.map_cons, List.mem_cons] at h
    push_neg at h
    have hk : ¬ k = key := fun hh => h.1 hh.symm
    simp [lookupKey, hk, ih h.2]

theorem mem_keys_of_lookupKey_some {V : Type} {key : String} {l : List (String × Entry V)}
    {e : Entry V} (h : lookupKey key l = some e) : key ∈ l.map Prod.fst := by
  induction l with
  | nil => simp [lookupKey] at h
  | cons p rest ih =>
    rcases p with ⟨k, e'⟩
    by_cases hk : k = key
    · simp [hk]
    · simp only [lookupKey, if_neg hk] at h
      simp [ih h]

theorem lookupKey_append_of_not_mem {V : Type} {key : String}
    {l m : List (String × Entry V)} (h : key ∉ l.map Prod.fst) :
    lookupKey key (l ++ m) = lookupKey key m := by
  induction l with
  | nil => rfl
  | cons p rest ih =>
    rcases p with ⟨k, e⟩
    simp only [List.map_cons, List.mem_cons] at h
    push_neg at h
    have hk : ¬ k = key := fun hh => h.1 hh.symm
    simp [lookupKey, hk, ih h.2]

theorem eraseKey_sublist {V : Type} (key : String) (l : List (String × Entry V)) :
    List.Sublist (eraseKey key l) l := by
  induction l with
  | nil => simp [eraseKey]
  | cons p rest ih =>
    rcases p with ⟨k, e⟩
    simp only [eraseKey]
    by_cases h : k = key
    · rw [if_pos h]
      exact List.sublist_cons_self _ _
    · rw [if_neg h]
      exact ih.cons₂ _

theorem eraseKey_of_not_mem {V : Type} {key : String} {l : List (String × Entry V)}
    (h : key ∉ l.map Prod.fst) : eraseKey key l = l := by
  induction l with
  | nil => rfl
  | cons p rest ih =>
    rcases p with ⟨k, e⟩
    simp only [List.map_cons, List.mem_cons] at h
    push_neg at h
    have hk : ¬ k = key := fun hh => h.1 hh.symm
    simp [eraseKey, hk, ih h.2]

theorem length_eraseKey_of_mem {V : Type} {key : String} {l : List (String × Entry V)}
    (h : key ∈ l.map Prod.fst) : (eraseKey key l).length + 1 = l.length := by
  induction l with
  | nil => simp at h
  | cons p rest ih =>
    rcases p with ⟨k, e⟩
    by_cases hk : k = key
    · simp [eraseKey, hk]
    · simp only [List.map_cons, List.mem_cons] at h
      rcases h with h | h
      · exact absurd h.symm hk
      · have := ih h
        simp only [eraseKey, if_neg hk, List.length_cons]
        omega

theorem not_mem_keys_eraseKey {V : Type} {key : String} {l : List (String × Entry V)}
    (h : (l.map Prod.fst).Nodup) : key ∉ (eraseKey key l).map Prod.fst := by
  induction l with
  | nil => simp [eraseKey]
  | cons p rest ih =>
    rcases p with ⟨k, e⟩
    simp only [List.map_cons, List.nodup_cons] at h
    by_cases hk : k = key
    · subst hk
      simp only [eraseKey, if_pos rfl]
      exact h.1
    · simp only [eraseKey, if_neg hk, List.map_cons, List.mem_cons]
      push_neg
      exact ⟨fun hh => hk hh.symm, ih h.2⟩

theorem nodup_keys_eraseKey {V : Type} {key : String} {l : List (String × Entry V)}
    (h : (l.map Prod.fst).Nodup) : ((eraseKey key l).map Prod.fst).Nodup :=
  h.sublist ((eraseKey_sublist key l).map Prod.fst)

theorem purgeExpired_sublist {V : Type} (now : Int) (l : List (String × Entry V)) :
    List.Sublist (purgeExpired now l) l :=
  List.filter_sublist l

theorem nodup_keys_purgeExpired {V : Type} {now : Int} {l : List (String × Entry V)}
    (h : (l.map Prod.fst).Nodup) : ((purgeExpired now l).map Prod.fst).Nodup :=
  h.sublist ((purgeExpired_sublist now l).map Prod.fst)

theorem purgeExpired_eq_self {V : Type} {now : Int} {l : List (String × Entry V)}
    (h : ∀ p ∈ l, p.2.expired now = false) : purgeExpired now l = l := by
  unfold purgeExpired
  rw [List.filter_eq_self]
  intro a ha
  simp [h a ha]

theorem lookupKey_purgeExpired {V : Type} {key : String} {now : Int}
    {l : List (String × Entry V)} (h : (l.map Prod.fst).Nodup) :
    lookupKey key (purgeExpired now l) =
      (lookupKey key l).bind (fun e => if e.expired now then none else some e) := by
  induction l with
  | nil => rfl
  | cons p rest ih =>
    rcases p with ⟨k, e⟩
    simp only [List.map_cons, List.nodup_cons] at h
    by_cases hk : k = key
    · subst hk
      by_cases hexp : e.expired now
      · have hnone : lookupKey k (List.filter (fun p => ! p.2.expired now) rest) = none := by
          apply lookupKey_of_not_mem
          intro hmem
          exact h.1 (((List.filter_sublist rest).map Prod.fst).subset hmem)
        simp [purgeExpired, List.filter_cons, hexp, lookupKey, hnone]
      · simp [purgeExpired, List.filter_cons, hexp, lookupKey]
    · by_cases hexp : e.expired now
      · simpa [purgeExpired, List.filter_cons, hexp, lookupKey, hk] using ih h.2
      · simpa [purgeExpired, List.filter_cons, hexp, lookupKey, hk] using ih h.2

theorem evictIfNeeded_eq_drop {V : Type} (m : Nat) (l : List (String × Entry V)) :
    evictIfNeeded m l = l.drop (l.length - m) := by
  induction l with
  | nil => simp [evictIfNeeded]
  | cons p rest ih =>
    simp only [evictIfNeeded]
    by_cases h : m < (p :: rest).length
    · rw [if_pos h, ih]
      have hlen : (p :: rest).length - m = (rest.length - m) + 1 := by
        simp only [List.length_cons] at h ⊢
        omega
      rw [hlen, List.drop_succ_cons]
    · rw [if_neg h]
      have hlen : (p :: rest).length - m = 0 := by
        simp only [List.length_cons] at h ⊢
        omega
      rw [hlen, List.drop_zero]

theorem evictIfNeeded_length_le {V : Type} (m : Nat) (l : List (String × Entry V)) :
    (evictIfNeeded m l).length ≤ m := by
  rw [evictIfNeeded_eq_drop, List.length_drop]
  omega

/-! Behaviour of get and set on stores with distinct keys. -/

theorem nodup_keys_touch {V : Type} {key : String} {l : List (String × Entry V)}
    (h : (l.map Prod.fst).Nodup) (e : Entry V) :
    ((eraseKey key l ++ [(key, e)]).map Prod.fst).Nodup := by
  rw [List.map_append, List.nodup_append]
  refine ⟨nodup_keys_eraseKey h, by simp, ?_⟩
  intro a ha hb
  simp only [List.map_cons, List.map_nil, List.mem_singleton] at hb
  subst hb
  exact not_mem_keys_eraseKey h ha

/-- The value returned by MemoryTTLCache.get, characterised by the state
    before the call: the stored entry's value when the key is bound and
    the entry is not expired at the instant of the call, none otherwise.
    The hypothesis is the OrderedDict key-uniqueness invariant. -/
theorem get_fst_spec {V : Type} (c : MemoryTTLCache V) (now : Int) (key : String)
    (h : (c.store.map Prod.fst).Nodup) :
    (c.get now key).1 =
      (lookupKey key c.store).bind
        (fun e => if e.expired now then none else some e.value) := by
  cases hl : lookupKey key c.store with
  | none =>
    have hp : lookupKey key (purgeExpired now c.store) = none := by
      rw [lookupKey_purgeExpired h, hl]
      rfl
    simp [MemoryTTLCache.get, hp]
  | some e =>
    by_cases hexp : e.expired now
    · have hp : lookupKey key (purgeExpired now c.store) = none := by
        rw [lookupKey_purgeExpired h, hl]
        simp [hexp]
      simp [MemoryTTLCache.get, hp, hexp]
    · have hp : lookupKey key (purgeExpired now c.store) = some e := by
        rw [lookupKey_purgeExpired h, hl]
        simp [hexp]
      simp [MemoryTTLCache.get, hp, hexp]

theorem nodup_keys_get {V : Type} (c : MemoryTTLCache V) (now : Int) (key : String)
    (h : (c.store.map Prod.fst).Nodup) :
    (((c.get now key).2.store).map Prod.fst).Nodup := by
  cases hp : lookupKey key (purgeExpired now c.store) with
  | none =>
    simp only [MemoryTTLCache.get, hp]
    exact nodup_keys_purgeExpired h
  | some e =>
    simp only [MemoryTTLCache.get, hp]
    exact nodup_keys_touch (nodup_keys_purgeExpired h) e

theorem set_store_eq {V : Type} (c : MemoryTTLCache V) (now : Int) (key : String)
    (v : V) (ttl : Option Int) (hmax : 1 ≤ c.max_items) :
    (c.set now key v ttl).store =
      (eraseKey key c.store).drop ((eraseKey key c.store).length + 1 - c.max_items)
        ++ [(key, Entry.mk v (ttlExpiry now ttl))] := by
  show evictIfNeeded c.max_items _ = _
  rw [evictIfNeeded_eq_drop, List.length_append]
  have h1 : ([(key, Entry.mk v (ttlExpiry now ttl))] : List (String × Entry V)).length = 1 := rfl
  rw [h1, List.drop_append_of_le_length (by omega)]

theorem lookupKey_set_self {V : Type} (c : MemoryTTLCache V) (now : Int) (key : String)
    (v : V) (ttl : Option Int) (h : (c.store.map Prod.fst).Nodup)
    (hmax : 1 ≤ c.max_items) :
    lookupKey key (c.set now key v ttl).store = some (Entry.mk v (ttlExpiry now ttl)) := by
  rw [set_store_eq c now key v ttl hmax, lookupKey_append_of_not_mem]
  · simp [lookupKey]
  · intro hmem
    exact not_mem_keys_eraseKey h
      (((List.drop_sublist _ _).map Prod.fst).subset hmem)

theorem nodup_keys_set {V : Type} (c : MemoryTTLCache V) (now : Int) (key : String)
    (v : V) (ttl : Option Int) (h : (c.store.map Prod.fst).Nodup) :
    (((c.set now key v ttl).store).map Prod.fst).Nodup := by
  show ((evictIfNeeded c.max_items _).map Prod.fst).Nodup
  exact (nodup_keys_touch h _).sublist
    ((evictIfNeeded_eq_drop c.max_items _ ▸ List.drop_sublist _ _).map Prod.fst)

/-- Reading back the key just written: present with the written value
    while the computed expiry instant has not passed, absent afterwards.
    Needs capacity at least one so the fresh entry itself survives the
    eviction pass at the end of set. -/
theorem get_after_set {V : Type} (c : MemoryTTLCache V) (τ now : Int) (key : String)
    (v : V) (ttl : Option Int) (h : (c.store.map Prod.fst).Nodup)
    (hmax : 1 ≤ c.max_items) :
    ((c.set τ key v ttl).get now key).1 =
      if (Entry.mk v (ttlExpiry τ ttl)).expired now then none else some v := by
  rw [get_fst_spec _ _ _ (nodup_keys_set c τ key v ttl h),
    lookupKey_set_self c τ key v ttl h hmax]
  rfl

/-! Capacity and key-uniqueness invariants over operation sequences. -/

theorem get_store_length_le {V : Type} (c : MemoryTTLCache V) (now : Int) (key : String) :
    ((c.get now key).2.store).length ≤ c.store.length := by
  cases hp : lookupKey key (purgeExpired now c.store) with
  | none =>
    simp only [MemoryTTLCache.get, hp]
    exact (purgeExpired_sublist now c.store).length_le
  | some e =>
    simp only [MemoryTTLCache.get, hp, List.length_append]
    have h1 := length_eraseKey_of_mem (mem_keys_of_lookupKey_some hp)
    have h2 := (purgeExpired_sublist now c.store).length_le
    simp only [List.length_cons, List.length_nil]
    omega

theorem set_store_length_le {V : Type} (c : MemoryTTLCache V) (now : Int) (key : String)
    (v : V) (ttl : Option Int) :
    ((c.set now key v ttl).store).length ≤ c.max_items :=
  evictIfNeeded_length_le _ _

theorem applyOp_max_items {V : Type} (c : MemoryTTLCache V) (op : CacheOp V) :
    (c.applyOp op).max_items = c.max_items := by
  cases op with
  | opGet now key =>
    cases hp : lookupKey key (purgeExpired now c.store) <;>
      simp [MemoryTTLCache.applyOp, MemoryTTLCache.get, hp]
  | opSet now key v ttl => rfl

/-- Key uniqueness (the OrderedDict invariant) holds in every state the
    cache can reach from its empty initial store, justifying the Nodup
    hypotheses of the point theorems. -/
theorem nodup_keys_runOps {V : Type} (M : Nat) (ops : List (CacheOp V)) :
    (((MemoryTTLCache.runOps M ops).store).map Prod.fst).Nodup := by
  suffices h : ∀ c : MemoryTTLCache V, (c.store.map Prod.fst).Nodup →
      (((ops.foldl MemoryTTLCache.applyOp c).store).map Prod.fst).Nodup by
    exact h ⟨[], M⟩ (by simp)
  induction ops with
  | nil => intro c hc; exact hc
  | cons op rest ih =>
    intro c hc
    apply ih
    cases op with
    | opGet now key => exact nodup_keys_get c now key hc
    | opSet now key v ttl => exact nodup_keys_set c now key v ttl hc

/-- C4: starting from the empty cache with capacity M, the number of
    stored entries never exceeds M after any sequence of get and set
    calls — set ends with the eviction loop of _evict_if_needed, and get
    only removes or reorders entries. -/
theorem C4_capacity_never_exceeded (V : Type) (M : Nat) (ops : List (CacheOp V)) :
    ((MemoryTTLCache.runOps M ops).store).length ≤ M := by
  suffices h : ∀ c : MemoryTTLCache V, c.store.length ≤ M → c.max_items = M →
      ((ops.foldl MemoryTTLCache.applyOp c).store).length ≤ M ∧
      (ops.foldl MemoryTTLCache.applyOp c).max_items = M by
    exact (h ⟨[], M⟩ (by simp) rfl).1
  induction ops with
  | nil => intro c h1 h2; exact ⟨h1, h2⟩
  | cons op rest ih =>
    intro c h1 h2
    apply ih
    · cases op with
      | opGet now key => exact le_trans (get_store_length_le c now key) h1
      | opSet now key v ttl => exact h2 ▸ set_store_length_le c now key v ttl
    · rw [applyOp_max_items, h2]

/-- C3: on any store satisfying the OrderedDict key-uniqueness invariant,
    get returns the stored value when the key is bound to an entry that
    has not expired at the instant of the call, and returns none when the
    key is unbound or its entry has expired; get is a total function, so
    a missing key is a normal none outcome, never an error, and an
    expired value is never returned. -/
theorem C3_get_present_or_absent (V : Type) (c : MemoryTTLCache V) (now : Int)
    (key : String) (h : (c.store.map Prod.fst).Nodup) :
    (∀ e : Entry V, lookupKey key c.store = some e → e.expired now = false →
        (c.get now key).1 = some e.value) ∧
    (lookupKey key c.store = none → (c.get now key).1 = none) ∧
    (∀ e : Entry V, lookupKey key c.store = some e → e.expired now = true →
        (c.get now key).1 = none) := by
  refine ⟨?_, ?_, ?_⟩
  · intro e hl hexp
    rw [get_fst_spec c now key h, hl]
    simp [hexp]
  · intro hl
    rw [get_fst_spec c now key h, hl]
    rfl
  · intro e hl hexp
    rw [get_fst_spec c now key h, hl]
    simp [hexp]

/-- Concrete store used to witness C3: one entry that never expires and
    one that expired at instant 5. -/
def c3Cache : MemoryTTLCache String :=
  ⟨[("a", ⟨"1", none⟩), ("b", ⟨"2", some 5⟩)], 10⟩

theorem C3_get_present_or_absent_witness :
    ((c3Cache.get 10 "a").1 = some "1") ∧
    ((c3Cache.get 10 "z").1 = none) ∧
    ((c3Cache.get 10 "b").1 = none) := by
  refine ⟨?_, ?_, ?_⟩
  · exact (C3_get_present_or_absent String c3Cache 10 "a" (by decide)).1
      ⟨"1", none⟩ (by decide) (by decide)
  · exact (C3_get_present_or_absent String c3Cache 10 "z" (by decide)).2.1 (by decide)
  · exact (C3_get_present_or_absent String c3Cache 10 "b" (by decide)).2.2
      ⟨"2", some 5⟩ (by decide) (by decide)

/-- C2 counterexample: the claim says that for a ttl that is not > 0 the
    entry never expires, but the code only treats None and 0 as "no
    expiry" (Python truthiness of ttl_seconds); a provided negative ttl
    such as -1 produces an expiry instant in the past, so a get at the
    very instant of the set already finds the entry expired and returns
    none instead of the stored value. -/
theorem C2_counterexample_negative_ttl :
    ((((MemoryTTLCache.mk ([] : List (String × Entry String)) 1024).set 0 "x" "v"
        (some (-1))).get 0 "x").1 = none) ∧
    ¬ ((((MemoryTTLCache.mk ([] : List (String × Entry String)) 1024).set 0 "x" "v"
        (some (-1))).get 0 "x").1 = some "v") := by
  refine ⟨by decide, by decide⟩

/-- C2 (amended): for a set at instant τ with ttl argument t on a cache
    with capacity at least one, (i) if t is provided and nonzero the
    stored entry carries expiry instant τ + t, so an immediate get
    returns the value strictly before τ + t and none from τ + t on — for
    t > 0 the entry expires exactly t after the set, while for t < 0 it
    is already expired at the set itself; (ii) if t = 0 or t is absent
    the entry never expires on its own: a get after an arbitrarily long
    delay still returns the value (subject only to capacity eviction by
    later writes, none of which intervene here). -/
theorem C2_set_ttl_expiry (V : Type) (c : MemoryTTLCache V) (τ : Int) (key : String)
    (v : V) (h : (c.store.map Prod.fst).Nodup) (hmax : 1 ≤ c.max_items) :
    (∀ t : Int, t ≠ 0 → ∀ now : Int,
        ((c.set τ key v (some t)).get now key).1 =
          if now < τ + t then some v else none) ∧
    (∀ now : Int, ((c.set τ key v (some 0)).get now key).1 = some v) ∧
    (∀ now : Int, ((c.set τ key v none).get now key).1 = some v) := by
  refine ⟨?_, ?_, ?_⟩
  · intro t ht now
    rw [get_after_set c τ now key v (some t) h hmax]
    simp only [Entry.expired, ttlExpiry, if_neg ht]
    by_cases hc : now < τ + t
    · rw [if_neg (by simp; omega), if_pos hc]
    · rw [if_pos (by simp; omega), if_neg hc]
  · intro now
    rw [get_after_set c τ now key v (some 0) h hmax]
    simp [Entry.expired, ttlExpiry]
  · intro now
    rw [get_after_set c τ now key v none h hmax]
    simp [Entry.expired, ttlExpiry]

theorem C2_set_ttl_expiry_witness :
    ((((MemoryTTLCache.mk ([] : List (String × Entry String)) 1024).set 0 "k" "v"
        (some 5)).get 3 "k").1 = some "v") ∧
    ((((MemoryTTLCache.mk ([] : List (String × Entry String)) 1024).set 0 "k" "v"
        (some 5)).get 5 "k").1 = none) ∧
    ((((MemoryTTLCache.mk ([] : List (String × Entry String)) 1024).set 0 "k" "v"
        (some 0)).get 1000000 "k").1 = some "v") := by
  have h := C2_set_ttl_expiry String (MemoryTTLCache.mk [] 1024) 0 "k" "v"
    (by simp) (by norm_num)
  refine ⟨?_, ?_, ?_⟩
  · have h1 := h.1 5 (by norm_num) 3
    simpa using h1
  · have h2 := h.1 5 (by norm_num) 5
    simpa using h2
  · exact h.2.1 1000000
/-- Appending on the right commutes with tail when the left part is
    nonempty. -/
theorem tail_append_of_ne_nil {α : Type} {l m : List α} (h : l ≠ []) :
    (l ++ m).tail = l.tail ++ m := by
  cases l with
  | nil => exact absurd rfl h
  | cons a rest => rfl

/-- Setting a fresh key on a cache filled exactly to capacity evicts
    exactly the head (least recently touched) entry: the new store is the
    old one minus its head, in order, with the fresh entry at the MRU
    end. -/
theorem set_full_fresh {V : Type} (c : MemoryTTLCache V) (now : Int) (k' : String)
    (v' : V) (ttl : Option Int)
    (hlen : c.store.length = c.max_items) (hmax : 1 ≤ c.max_items)
    (hk' : k' ∉ c.store.map Prod.fst) :
    (c.set now k' v' ttl).store =
      c.store.tail ++ [(k', Entry.mk v' (ttlExpiry now ttl))] := by
  rw [set_store_eq c now k' v' ttl hmax, eraseKey_of_not_mem hk']
  have hone : c.store.length + 1 - c.max_items = 1 := by omega
  rw [hone, List.drop_one]

/-- Intermediate state of the C5 counterexample: max size 1, one entry
    under key a just written and then refreshed by a successful get. -/
def c5RefreshOutcome : Option Int × MemoryTTLCache Int :=
  ((MemoryTTLCache.mk ([] : List (String × Entry Int)) 1).set 0 "a" 1 none).get 0 "a"

/-- C5 counterexample: with max size M = 1, a successful get refreshes
    the only entry, yet the very next overflow still evicts it — with a
    single slot the refreshed key is simultaneously the least recently
    touched one, so the claimed exemption from the next eviction fails:
    after set(a,1), get(a) = 1, set(b,2), the key a is gone. -/
theorem C5_counterexample_m1 :
    c5RefreshOutcome.1 = some 1 ∧
    ((c5RefreshOutcome.2.set 0 "b" 2 none).get 0 "a").1 = none := by
  refine ⟨by decide, by decide⟩

/-- Spec scenario 1 for C5: max size 2, three sets of distinct keys. -/
def c5Scenario : MemoryTTLCache Int :=
  (((MemoryTTLCache.mk ([] : List (String × Entry Int)) 2).set 0 "a" 1
    none).set 0 "b" 2 none).set 0 "c" 3 none

/-- The three sequential reads of spec scenario 1. -/
def c5GetA : Option Int × MemoryTTLCache Int := c5Scenario.get 0 "a"

def c5GetB : Option Int × MemoryTTLCache Int := c5GetA.2.get 0 "b"

def c5GetC : Option Int × MemoryTTLCache Int := c5GetB.2.get 0 "c"

/-- C5 (amended): (a) a cache at capacity M ≥ 1 holding M unexpired
    entries evicts exactly the head entry (the least recently touched)
    and no other when a fresh distinct key is set: the new store is the
    old store minus its head, in order, with the fresh entry at the MRU
    end; (b) when the cache holds at least two entries (M ≥ 2), a
    successful get of key k returns its value and moves k to the MRU
    end, so k is not the entry evicted by the next overflow — for M = 1
    the refreshed key is the only, hence least recently touched, entry
    and is still evicted, which is what the counterexample shows and
    what restricts the claim; (c) the spec scenario at M = 2: set(a,1),
    set(b,2), set(c,3) leaves get(a) absent, get(b) = 2, get(c) = 3. -/
theorem C5_lru_eviction_refresh :
    (∀ (V : Type) (c : MemoryTTLCache V) (now : Int) (k' : String) (v' : V)
        (ttl : Option Int),
      (c.store.map Prod.fst).Nodup →
      (∀ p ∈ c.store, p.2.expired now = false) →
      c.store.length = c.max_items →
      1 ≤ c.max_items →
      k' ∉ c.store.map Prod.fst →
      (c.set now k' v' ttl).store =
        c.store.tail ++ [(k', Entry.mk v' (ttlExpiry now ttl))]) ∧
    (∀ (V : Type) (c : MemoryTTLCache V) (now now' : Int) (k : String) (e : Entry V)
        (k'' : String) (v'' : V) (ttl : Option Int),
      (c.store.map Prod.fst).Nodup →
      (∀ p ∈ c.store, p.2.expired now = false) →
      c.store.length = c.max_items →
      2 ≤ c.max_items →
      lookupKey k c.store = some e →
      k'' ∉ c.store.map Prod.fst →
      ((c.get now k).1 = some e.value ∧
       ((c.get now k).2.set now' k'' v'' ttl).store =
         (eraseKey k c.store).tail ++
           [(k, e), (k'', Entry.mk v'' (ttlExpiry now' ttl))] ∧
       k ∈ ((((c.get now k).2.set now' k'' v'' ttl).store).map Prod.fst))) ∧
    (c5GetA.1 = none ∧ c5GetB.1 = some 2 ∧ c5GetC.1 = some 3) := by
  refine ⟨?_, ?_, by decide, by decide, by decide⟩
  · intro V c now k' v' ttl _hnd _hall hlen hmax hk'
    exact set_full_fresh c now k' v' ttl hlen hmax hk'
  · intro V c now now' k e k'' v'' ttl hnd hall hlen hmax hl hk''
    have hget : c.get now k =
        (some e.value, ⟨eraseKey k c.store ++ [(k, e)], c.max_items⟩) := by
      have hp : lookupKey k (purgeExpired now c.store) = some e := by
        rw [purgeExpired_eq_self hall, hl]
      simp only [MemoryTTLCache.get, hp]
      rw [purgeExpired_eq_self hall]
    have hget2 : (c.get now k).2 =
        ⟨eraseKey k c.store ++ [(k, e)], c.max_items⟩ := congrArg Prod.snd hget
    have hkmem : k ∈ c.store.map Prod.fst := mem_keys_of_lookupKey_some hl
    have herase := length_eraseKey_of_mem hkmem
    have hkne : ¬ k'' = k := fun hh => hk'' (hh ▸ hkmem)
    have hk''c1 : k'' ∉ ((eraseKey k c.store ++ [(k, e)]).map Prod.fst) := by
      rw [List.map_append, List.mem_append]
      rintro (hmem | hmem)
      · exact hk'' (((eraseKey_sublist k c.store).map Prod.fst).subset hmem)
      · simp only [List.map_cons, List.map_nil, List.mem_singleton] at hmem
        exact hkne hmem
    have hlen1 : (MemoryTTLCache.mk (eraseKey k c.store ++ [(k, e)])
        c.max_items).store.length =
        (MemoryTTLCache.mk (eraseKey k c.store ++ [(k, e)]) c.max_items).max_items := by
      show (eraseKey k c.store ++ [(k, e)]).length = c.max_items
      rw [List.length_append]
      simp only [List.length_cons, List.length_nil]
      omega
    have hne : eraseKey k c.store ≠ [] := by
      have hpos : 0 < (eraseKey k c.store).length := by omega
      exact List.length_pos.mp hpos
    have happ := set_full_fresh
      (MemoryTTLCache.mk (eraseKey k c.store ++ [(k, e)]) c.max_items)
      now' k'' v'' ttl hlen1 (by omega : 1 ≤ c.max_items) hk''c1
    have hstore : ((c.get now k).2.set now' k'' v'' ttl).store =
        (eraseKey k c.store).tail ++
          [(k, e), (k'', Entry.mk v'' (ttlExpiry now' ttl))] := by
      rw [hget2, happ]
      show (eraseKey k c.store ++ [(k, e)]).tail ++ _ = _
      rw [tail_append_of_ne_nil hne, List.append_assoc]
      rfl
    refine ⟨by rw [hget], hstore, ?_⟩
    rw [hstore]
    simp

/-- Concrete full cache used to witness the universal parts of C5. -/
def c5Full : MemoryTTLCache Int :=
  ⟨[("a", ⟨10, none⟩), ("b", ⟨20, none⟩)], 2⟩

theorem C5_lru_eviction_refresh_witness :
    ((c5Full.set 0 "c" 30 none).store = [("b", ⟨20, none⟩), ("c", ⟨30, none⟩)]) ∧
    ("a" ∈ ((((c5Full.get 0 "a").2.set 1 "c" 30 none).store).map Prod.fst)) := by
  have h := C5_lru_eviction_refresh
  constructor
  · have ha := h.1 Int c5Full 0 "c" 30 none (by decide) (by decide) (by decide)
      (by decide) (by decide)
    rw [ha]
    decide
  · have hb := h.2.1 Int c5Full 0 1 "a" ⟨10, none⟩ "c" 30 none (by decide) (by decide)
      (by decide) (by decide) (by decide) (by decide)
    exact hb.2.2

/-! Backend selection: settings.py and the get_cache singleton factory of
    caching.py. The factory's first call is modelled as a pure function of
    the configuration and of whether the optional redis.asyncio client
    library imported successfully; a raised RuntimeError is an
    Except.error result. -/

/-- settings.py, class Settings: the environment-driven configuration.
    Field defaults appear in defaultSettings below. -/
structure Settings where
  app_name : String
  environment : String
  cache_backend : String
  cache_ttl_seconds : Int
  redis_url : Option String
  queue_worker_concurrency : Int
  enforce_https : Bool
  hsts_max_age : Int
deriving DecidableEq, Repr

/-- settings.py: the default values of every Settings field. -/
def defaultSettings : Settings :=
  ⟨"System Design API", "development", "memory", 60, none, 2, true, 31536000⟩

/-- Which cache backend instance get_cache constructed. -/
inductive SelectedBackend
  | memory (max_items : Nat)
  | redis (url : String)
deriving DecidableEq, Repr

/-- Python truthiness of an Optional[str]: None and the empty string are
    falsy, every other string is truthy. -/
def pyTruthyStr : Option String → Bool
  | none => false
  | some s => ! (s == "")

/-- Python str.lower, character by character (the configuration values
    compared here are ASCII). -/
def pyLower (s : String) : String :=
  ⟨s.data.map Char.toLower⟩

/-- caching.py lines 64-68, RedisCache.__init__: raises RuntimeError when
    the redis.asyncio import failed, otherwise constructs the client from
    the url (aioredis.from_url does not contact the server, so a
    syntactically acceptable url always yields an instance here). -/
def RedisCache_init (aioredisAvailable : Bool) (url : String) :
    Except String SelectedBackend :=
  if aioredisAvailable then Except.ok (SelectedBackend.redis url)
  else Except.error "redis.asyncio not available. Ensure the redis package is installed."

/-- caching.py lines 83-91, get_cache, first call (the singleton is still
    None): picks RedisCache only when cache_backend lowercases to redis
    and redis_url is truthy, and otherwise silently constructs the
    in-process MemoryTTLCache with its default capacity 1024. -/
def get_cache (s : Settings) (aioredisAvailable : Bool) :
    Except String SelectedBackend :=
  if pyLower s.cache_backend == "redis" && pyTruthyStr s.redis_url then
    match s.redis_url with
    | some url => RedisCache_init aioredisAvailable url
    | none => Except.ok (SelectedBackend.memory 1024)
  else
    Except.ok (SelectedBackend.memory 1024)

/-- Configuration of the C1 counterexample: backend kind redis with no
    connection string configured. -/
def redisNoUrlSettings : Settings :=
  ⟨"System Design API", "development", "redis", 60, none, 2, true, 31536000⟩

/-- Configuration with backend kind redis and a connection string. -/
def redisWithUrlSettings : Settings :=
  ⟨"System Design API", "development", "redis", 60,
    some "redis://localhost:6379/0", 2, true, 31536000⟩

/-- C1 counterexample: with backend kind redis and redis_url absent, the
    first call to get_cache does not fail — whether or not the redis
    client library is importable it silently returns the in-process
    memory backend instance, contradicting the claimed fatal
    configuration error. -/
theorem C1_counterexample_silent_fallback :
    get_cache redisNoUrlSettings true = Except.ok (SelectedBackend.memory 1024) ∧
    get_cache redisNoUrlSettings false = Except.ok (SelectedBackend.memory 1024) := by
  refine ⟨rfl, rfl⟩

/-- C1 (amended): when the configured backend kind is redis but
    redis_url is absent or empty (falsy), the first call to get_cache
    silently falls back to the in-process memory backend instead of
    failing; the fatal configuration error (RuntimeError) occurs exactly
    when redis_url is present and nonempty but the redis client library
    cannot be imported, and with the library available a backend instance
    for that url is returned. -/
theorem C1_selector_fallback_and_error (s : Settings) :
    (∀ avail : Bool, pyLower s.cache_backend = "redis" →
      pyTruthyStr s.redis_url = false →
      get_cache s avail = Except.ok (SelectedBackend.memory 1024)) ∧
    (∀ url : String, s.redis_url = some url → url ≠ "" →
      pyLower s.cache_backend = "redis" →
      (get_cache s false =
        Except.error "redis.asyncio not available. Ensure the redis package is installed." ∧
       get_cache s true = Except.ok (SelectedBackend.redis url))) := by
  constructor
  · intro avail hkind hfalsy
    unfold get_cache
    rw [hkind]
    simp [hfalsy]
  · intro url hurl hne hkind
    have htruthy : pyTruthyStr s.redis_url = true := by
      rw [hurl]
      simp [pyTruthyStr, hne]
    constructor
    · unfold get_cache
      rw [hkind, hurl]
      rw [hurl] at htruthy
      simp [htruthy, RedisCache_init]
    · unfold get_cache
      rw [hkind, hurl]
      rw [hurl] at htruthy
      simp [htruthy, RedisCache_init]

theorem C1_selector_fallback_and_error_witness :
    get_cache redisNoUrlSettings true = Except.ok (SelectedBackend.memory 1024) ∧
    get_cache redisWithUrlSettings false =
      Except.error "redis.asyncio not available. Ensure the redis package is installed." ∧
    get_cache redisWithUrlSettings true =
      Except.ok (SelectedBackend.redis "redis://localhost:6379/0") := by
  have h1 := (C1_selector_fallback_and_error redisNoUrlSettings).1 true
    (by decide) (by decide)
  have h2 := (C1_selector_fallback_and_error redisWithUrlSettings).2
    "redis://localhost:6379/0" rfl (by decide) (by decide)
  exact ⟨h1, h2.1, h2.2⟩

/-! Job queue: queue.py. Job identity: uuid.uuid4 freshness is modelled
    by a monotone counter carried in the queue state, so each enqueue
    yields an id distinct from every id handed out before. Numbers in
    payloads and results are modelled over ℚ (Python ints are exact;
    floats are modelled exactly, rounding being irrelevant to the claims
    checked here). -/

/-- queue.py lines 44-47: isinstance(v, (int, float)). Python bool is a
    subtype of int, so booleans pass this check. -/
def isinstance_int_or_float : PyValue → Bool
  | .pyInt _ => true
  | .pyBool _ => true
  | .pyFloat _ => true
  | _ => false

/-- Numeric value of a payload entry as used by Python's sum: ints and
    floats denote themselves, True is 1 and False is 0. -/
def pyNumericValue : PyValue → ℚ
  | .pyInt n => (n : ℚ)
  | .pyBool b => if b then 1 else 0
  | .pyFloat q => q
  | _ => 0

/-- queue.py line 46: sum(v for v in job.payload.values() if
    isinstance(v, (int, float))), a left fold starting from 0 over the
    payload values passing the isinstance check, in order. -/
def payloadSum (payload : List (String × PyValue)) : ℚ :=
  ((payload.map Prod.snd).filter isinstance_int_or_float).foldl
    (fun acc v => acc + pyNumericValue v) 0

/-- queue.py lines 9-15: the four Job states. -/
inductive JobStatus
  | queued
  | processing
  | done
  | failed
deriving DecidableEq, Repr

/-- queue.py lines 9-15, dataclass Job: id, payload, status (initially
    queued), optional result (the worker stores the dict with the single
    key sum, modelled as that association list), optional error
    message. -/
structure Job where
  id : Nat
  payload : List (String × PyValue)
  status : JobStatus
  result : Option (List (String × ℚ))
  error : Option String
deriving DecidableEq, Repr

/-- Snapshot entry for one job: queue.py lines 60-68 read status, result
    and error. -/
structure JobView where
  status : JobStatus
  result : Option (List (String × ℚ))
  error : Option String
deriving DecidableEq, Repr

/-- queue.py, InMemoryJobQueue state: the jobs registry (self.jobs, in
    insertion order), the FIFO channel of job ids (self.queue), and the
    fresh-id source standing in for uuid4. -/
structure QueueState where
  jobs : List Job
  channel : List Nat
  nextId : Nat
deriving DecidableEq, Repr

/-- queue.py lines 19-23: a fresh queue has no jobs and an empty
    channel. -/
def initialQueueState : QueueState := ⟨[], [], 0⟩

/-- queue.py lines 54-58, InMemoryJobQueue.enqueue: create a Job with a
    fresh id in state queued, register it, append it to the FIFO channel,
    and return it (before any worker has touched it). -/
def QueueState.enqueue (s : QueueState) (payload : List (String × PyValue)) :
    Job × QueueState :=
  let job : Job := ⟨s.nextId, payload, JobStatus.queued, none, none⟩
  (job, ⟨s.jobs ++ [job], s.channel ++ [s.nextId], s.nextId + 1⟩)

/-- queue.py lines 60-68, InMemoryJobQueue.snapshot: for every registered
    job, its current status, result and error. -/
def QueueState.snapshot (s : QueueState) : List (Nat × JobView) :=
  s.jobs.map (fun j => (j.id, ⟨j.status, j.result, j.error⟩))

/-- Replace the job with the given id by its image under f (mutation of
    the Job object held in the registry). -/
def updateJob (id : Nat) (f : Job → Job) (jobs : List Job) : List Job :=
  jobs.map (fun j => if j.id = id then f j else j)

/-- Association lookup in a snapshot (dict access by job id). -/
def lookupId {A : Type} (id : Nat) : List (Nat × A) → Option A
  | [] => none
  | (k, a) :: rest => if k = id then some a else lookupId id rest

/-- Atomic steps of the queue system, one per block of worker or caller
    code between two await points (queue.py lines 35-58):
    enqueue registers and publishes a new queued job; dequeue is a worker
    receiving the channel head and marking it processing (no await
    separates queue.get returning from the status assignment); finish_ok
    is the success path storing the sum result and the done status in one
    block; finish_err is the except Exception branch storing the error
    message and the failed status. -/
inductive QStep : QueueState → QueueState → Prop
  | enqueue (s : QueueState) (payload : List (String × PyValue)) :
      QStep s (s.enqueue payload).2
  | dequeue (s : QueueState) (id : Nat) (rest : List Nat) :
      s.channel = id :: rest →
      QStep s ⟨updateJob id (fun j => { j with status := JobStatus.processing }) s.jobs,
        rest, s.nextId⟩
  | finish_ok (s : QueueState) (id : Nat) (j : Job) :
      j ∈ s.jobs → j.id = id → j.status = JobStatus.processing →
      QStep s ⟨updateJob id
        (fun j => { j with result := some [("sum", payloadSum j.payload)],
                           status := JobStatus.done }) s.jobs,
        s.channel, s.nextId⟩
  | finish_err (s : QueueState) (id : Nat) (msg : String) (j : Job) :
      j ∈ s.jobs → j.id = id → j.status = JobStatus.processing →
      QStep s ⟨updateJob id
        (fun j => { j with status := JobStatus.failed, error := some msg }) s.jobs,
        s.channel, s.nextId⟩

/-- States the queue system can reach from process start. -/
def Reachable (s : QueueState) : Prop :=
  Relation.ReflTransGen QStep initialQueueState s

/-- The status edges of the Job state machine as specified: stay, or
    queued to processing, or processing to a terminal state. -/
def statusEdge (a b : JobStatus) : Prop :=
  a = b ∨ (a = JobStatus.queued ∧ b = JobStatus.processing) ∨
    (a = JobStatus.processing ∧ (b = JobStatus.done ∨ b = JobStatus.failed))

/-- The inductive invariant of the queue system: registered ids are
    distinct and below the fresh-id counter, the channel holds distinct
    ids of registered jobs that are still queued, result is only ever
    populated on done jobs (and then holds the payload sum), and error
    only on failed jobs. -/
def QInv (s : QueueState) : Prop :=
  (s.jobs.map Job.id).Nodup ∧
  s.channel.Nodup ∧
  (∀ id ∈ s.channel, ∃ j ∈ s.jobs, j.id = id ∧ j.status = JobStatus.queued) ∧
  (∀ j ∈ s.jobs, j.id < s.nextId) ∧
  (∀ j ∈ s.jobs,
    (j.result ≠ none → j.status = JobStatus.done) ∧
    (j.error ≠ none → j.status = JobStatus.failed) ∧
    (j.status = JobStatus.done → j.result = some [("sum", payloadSum j.payload)]))

/-! Registry update lemmas and the inductive invariant proof. -/

theorem updateJob_mem {id : Nat} {f : Job → Job} {jobs : List Job} {j : Job}
    (hj : j ∈ jobs) :
    (if j.id = id then f j else j) ∈ updateJob id f jobs :=
  List.mem_map_of_mem _ hj

theorem mem_updateJob_of_ne {id : Nat} {f : Job → Job} {jobs : List Job} {j : Job}
    (hj : j ∈ jobs) (hne : j.id ≠ id) : j ∈ updateJob id f jobs := by
  have h := List.mem_map_of_mem (fun j => if j.id = id then f j else j) hj
  simp only [if_neg hne] at h
  exact h

theorem mem_updateJob_iff {id : Nat} {f : Job → Job} {jobs : List Job} {j' : Job} :
    j' ∈ updateJob id f jobs ↔
      ∃ j ∈ jobs, (if j.id = id then f j else j) = j' := by
  simp [updateJob, List.mem_map]

theorem map_id_updateJob {id : Nat} {f : Job → Job} (hf : ∀ j, (f j).id = j.id)
    (jobs : List Job) : (updateJob id f jobs).map Job.id = jobs.map Job.id := by
  unfold updateJob
  rw [List.map_map]
  apply List.map_congr_left
  intro j _hj
  by_cases h : j.id = id
  · simp [h, hf]
  · simp [h]

theorem job_eq_of_id_eq {jobs : List Job} (hnd : (jobs.map Job.id).Nodup)
    {j j' : Job} (hj : j ∈ jobs) (hj' : j' ∈ jobs) (hid : j.id = j'.id) : j = j' := by
  induction jobs with
  | nil => simp at hj
  | cons a rest ih =>
    simp only [List.map_cons, List.nodup_cons] at hnd
    rcases List.mem_cons.mp hj with h1 | h1 <;>
      rcases List.mem_cons.mp hj' with h2 | h2
    · rw [h1, h2]
    · exfalso
      apply hnd.1
      rw [← h1, hid]
      exact List.mem_map_of_mem Job.id h2
    · exfalso
      apply hnd.1
      rw [← h2, ← hid]
      exact List.mem_map_of_mem Job.id h1
    · exact ih hnd.2 h1 h2

/-- Every step of the queue system preserves the invariant. -/
theorem qinv_step {s s' : QueueState} (hinv : QInv s) (hstep : QStep s s') :
    QInv s' := by
  obtain ⟨hnd, hcnd, hch, hlt, hpop⟩ := hinv
  cases hstep with
  | enqueue payload =>
    refine ⟨?_, ?_, ?_, ?_, ?_⟩
    · show ((s.jobs ++ [_]).map Job.id).Nodup
      rw [List.map_append, List.nodup_append]
      refine ⟨hnd, by simp, ?_⟩
      intro a ha hb
      simp only [List.map_cons, List.map_nil, List.mem_singleton] at hb
      obtain ⟨j, hj, hjid⟩ := List.mem_map.mp ha
      have := hlt j hj
      omega
    · show (s.channel ++ [s.nextId]).Nodup
      rw [List.nodup_append]
      refine ⟨hcnd, by simp, ?_⟩
      intro a ha hb
      simp only [List.mem_singleton] at hb
      obtain ⟨j, hj, hjid, -⟩ := hch a ha
      have := hlt j hj
      omega
    · intro id hid
      rcases List.mem_append.mp hid with hid | hid
      · obtain ⟨j, hj, hjid, hjst⟩ := hch id hid
        exact ⟨j, List.mem_append_left _ hj, hjid, hjst⟩
      · simp only [List.mem_singleton] at hid
        exact ⟨⟨s.nextId, payload, JobStatus.queued, none, none⟩,
          List.mem_append_right _ (List.mem_singleton_self _), hid ▸ rfl, rfl⟩
    · intro j hj
      rcases List.mem_append.mp hj with hj | hj
      · have := hlt j hj
        show j.id < s.nextId + 1
        omega
      · simp only [List.mem_singleton] at hj
        rw [hj]
        show s.nextId < s.nextId + 1
        omega
    · intro j hj
      rcases List.mem_append.mp hj with hj | hj
      · exact hpop j hj
      · simp only [List.mem_singleton] at hj
        rw [hj]
        refine ⟨by simp, by simp, by simp⟩
  | dequeue id rest hchan =>
    have hidne : id ∉ rest := by
      rw [hchan] at hcnd
      exact (List.nodup_cons.mp hcnd).1
    obtain ⟨jq, hjq, hjqid, hjqst⟩ := hch id (hchan ▸ List.mem_cons_self id rest)
    refine ⟨?_, ?_, ?_, ?_, ?_⟩
    · rw [@map_id_updateJob id (fun j => { j with status := JobStatus.processing })
        (fun j => rfl) s.jobs]
      exact hnd
    · rw [hchan] at hcnd
      exact (List.nodup_cons.mp hcnd).2
    · intro id' hid'
      have hne : id' ≠ id := fun hh => hidne (hh ▸ hid')
      obtain ⟨j, hj, hjid, hjst⟩ := hch id' (hchan ▸ List.mem_cons_of_mem id hid')
      exact ⟨j, mem_updateJob_of_ne hj (by rw [hjid]; exact hne), hjid, hjst⟩
    · intro j' hj'
      obtain ⟨j, hj, hjeq⟩ := mem_updateJob_iff.mp hj'
      have := hlt j hj
      show j'.id < s.nextId
      by_cases h : j.id = id
      · rw [← hjeq, if_pos h]
        exact this
      · rw [← hjeq, if_neg h]
        exact this
    · intro j' hj'
      obtain ⟨j, hj, hjeq⟩ := mem_updateJob_iff.mp hj'
      by_cases h : j.id = id
      · rw [if_pos h] at hjeq
        have hjjq : j = jq := job_eq_of_id_eq hnd hj hjq (by rw [h, hjqid])
        have hres : j.result = none := by
          by_contra hres
          have := (hpop j hj).1 hres
          rw [hjjq, hjqst] at this
          exact JobStatus.noConfusion this
        have herr : j.error = none := by
          by_contra herr
          have := (hpop j hj).2.1 herr
          rw [hjjq, hjqst] at this
          exact JobStatus.noConfusion this
        rw [← hjeq]
        refine ⟨fun hc => absurd hres hc, fun hc => absurd herr hc, fun hc => ?_⟩
        exact JobStatus.noConfusion hc
      · rw [if_neg h] at hjeq
        rw [← hjeq]
        exact hpop j hj
  | finish_ok id jc hjc hjcid hjcst =>
    refine ⟨?_, hcnd, ?_, ?_, ?_⟩
    · rw [@map_id_updateJob id
        (fun j => { j with result := some [("sum", payloadSum j.payload)],
                           status := JobStatus.done })
        (fun j => rfl) s.jobs]
      exact hnd
    · intro id' hid'
      obtain ⟨j, hj, hjid, hjst⟩ := hch id' hid'
      have hne : j.id ≠ id := by
        intro hh
        have : j = jc := job_eq_of_id_eq hnd hj hjc (by rw [hh, hjcid])
        rw [this, hjcst] at hjst
        exact JobStatus.noConfusion hjst
      exact ⟨j, mem_updateJob_of_ne hj hne, hjid, hjst⟩
    · intro j' hj'
      obtain ⟨j, hj, hjeq⟩ := mem_updateJob_iff.mp hj'
      have := hlt j hj
      show j'.id < s.nextId
      by_cases h : j.id = id
      · rw [← hjeq, if_pos h]
        exact this
      · rw [← hjeq, if_neg h]
        exact this
    · intro j' hj'
      obtain ⟨j, hj, hjeq⟩ := mem_updateJob_iff.mp hj'
      by_cases h : j.id = id
      · rw [if_pos h] at hjeq
        rw [← hjeq]
        refine ⟨fun _ => rfl, fun hc => ?_, fun _ => rfl⟩
        · exfalso
          have hjjc : j = jc := job_eq_of_id_eq hnd hj hjc (by rw [h, hjcid])
          have herr : j.error = none := by
            by_contra herr
            have := (hpop j hj).2.1 herr
            rw [hjjc, hjcst] at this
            exact JobStatus.noConfusion this
          exact hc herr
      · rw [if_neg h] at hjeq
        rw [← hjeq]
        exact hpop j hj
  | finish_err id msg jc hjc hjcid hjcst =>
    refine ⟨?_, hcnd, ?_, ?_, ?_⟩
    · rw [@map_id_updateJob id
        (fun j => { j with status := JobStatus.failed, error := some msg })
        (fun j => rfl) s.jobs]
      exact hnd
    · intro id' hid'
      obtain ⟨j, hj, hjid, hjst⟩ := hch id' hid'
      have hne : j.id ≠ id := by
        intro hh
        have : j = jc := job_eq_of_id_eq hnd hj hjc (by rw [hh, hjcid])
        rw [this, hjcst] at hjst
        exact JobStatus.noConfusion hjst
      exact ⟨j, mem_updateJob_of_ne hj hne, hjid, hjst⟩
    · intro j' hj'
      obtain ⟨j, hj, hjeq⟩ := mem_updateJob_iff.mp hj'
      have := hlt j hj
      show j'.id < s.nextId
      by_cases h : j.id = id
      · rw [← hjeq, if_pos h]
        exact this
      · rw [← hjeq, if_neg h]
        exact this
    · intro j' hj'
      obtain ⟨j, hj, hjeq⟩ := mem_updateJob_iff.mp hj'
      by_cases h : j.id = id
      · rw [if_pos h] at hjeq
        have hjjc : j = jc := job_eq_of_id_eq hnd hj hjc (by rw [h, hjcid])
        have hres : j.result = none := by
          by_contra hres
          have := (hpop j hj).1 hres
          rw [hjjc, hjcst] at this
          exact JobStatus.noConfusion this
        rw [← hjeq]
        refine ⟨fun hc => absurd hres hc, fun _ => rfl, fun hc => ?_⟩
        exact JobStatus.noConfusion hc
      · rw [if_neg h] at hjeq
        rw [← hjeq]
        exact hpop j hj

/-- Every reachable state of the queue system satisfies the invariant. -/
theorem reachable_inv {s : QueueState} (h : Reachable s) : QInv s := by
  induction h with
  | refl =>
    refine ⟨by simp [initialQueueState], by simp [initialQueueState],
      ?_, ?_, ?_⟩ <;> intro x hx <;> simp [initialQueueState] at hx
  | tail _hrt hstep ih => exact qinv_step ih hstep

theorem reachable_trans {s s' : QueueState} (h : Reachable s)
    (h2 : Relation.ReflTransGen QStep s s') : Reachable s' :=
  Relation.ReflTransGen.trans h h2

/-- Across one step, the status of any job present before and after
    follows the specified state-machine edges. -/
theorem status_edge_step {s s' : QueueState} (hinv : QInv s) (hstep : QStep s s')
    {j j' : Job} (hj : j ∈ s.jobs) (hj' : j' ∈ s'.jobs) (hid : j.id = j'.id) :
    statusEdge j.status j'.status := by
  obtain ⟨hnd, hcnd, hch, hlt, _hpop⟩ := hinv
  cases hstep with
  | enqueue payload =>
    rcases List.mem_append.mp hj' with h | h
    · rw [job_eq_of_id_eq hnd hj h hid]
      exact Or.inl rfl
    · simp only [List.mem_singleton] at h
      exfalso
      have h1 := hlt j hj
      have h2 : j'.id = s.nextId := by rw [h]
      omega
  | dequeue id rest hchan =>
    obtain ⟨jq, hjq, hjqid, hjqst⟩ := hch id (hchan ▸ List.mem_cons_self id rest)
    obtain ⟨j0, hj0, hjeq⟩ := mem_updateJob_iff.mp hj'
    by_cases h : j0.id = id
    · rw [if_pos h] at hjeq
      have hj0jq : j0 = jq := job_eq_of_id_eq hnd hj0 hjq (by rw [h, hjqid])
      have hjj0 : j = j0 := by
        apply job_eq_of_id_eq hnd hj hj0
        rw [hid, ← hjeq]
      rw [hjj0, hj0jq, ← hjeq, hj0jq]
      right
      left
      exact ⟨hjqst, rfl⟩
    · rw [if_neg h] at hjeq
      rw [job_eq_of_id_eq hnd hj (hjeq ▸ hj0) hid]
      exact Or.inl rfl
  | finish_ok id jc hjc hjcid hjcst =>
    obtain ⟨j0, hj0, hjeq⟩ := mem_updateJob_iff.mp hj'
    by_cases h : j0.id = id
    · rw [if_pos h] at hjeq
      have hj0jc : j0 = jc := job_eq_of_id_eq hnd hj0 hjc (by rw [h, hjcid])
      have hjj0 : j = j0 := by
        apply job_eq_of_id_eq hnd hj hj0
        rw [hid, ← hjeq]
      rw [hjj0, hj0jc, ← hjeq, hj0jc]
      right
      right
      exact ⟨hjcst, Or.inl rfl⟩
    · rw [if_neg h] at hjeq
      rw [job_eq_of_id_eq hnd hj (hjeq ▸ hj0) hid]
      exact Or.inl rfl
  | finish_err id msg jc hjc hjcid hjcst =>
    obtain ⟨j0, hj0, hjeq⟩ := mem_updateJob_iff.mp hj'
    by_cases h : j0.id = id
    · rw [if_pos h] at hjeq
      have hj0jc : j0 = jc := job_eq_of_id_eq hnd hj0 hjc (by rw [h, hjcid])
      have hjj0 : j = j0 := by
        apply job_eq_of_id_eq hnd hj hj0
        rw [hid, ← hjeq]
      rw [hjj0, hj0jc, ← hjeq, hj0jc]
      right
      right
      exact ⟨hjcst, Or.inr rfl⟩
    · rw [if_neg h] at hjeq
      rw [job_eq_of_id_eq hnd hj (hjeq ▸ hj0) hid]
      exact Or.inl rfl

/-- A job in a terminal state is never touched again: the very same Job
    record survives any step. -/
theorem terminal_stays_step {s s' : QueueState} (hinv : QInv s) (hstep : QStep s s')
    {j : Job} (hj : j ∈ s.jobs)
    (hterm : j.status = JobStatus.done ∨ j.status = JobStatus.failed) :
    j ∈ s'.jobs := by
  obtain ⟨hnd, _hcnd, hch, _hlt, _hpop⟩ := hinv
  cases hstep with
  | enqueue payload => exact List.mem_append_left _ hj
  | dequeue id rest hchan =>
    apply mem_updateJob_of_ne hj
    intro hidq
    obtain ⟨jq, hjq, hjqid, hjqst⟩ := hch id (hchan ▸ List.mem_cons_self id rest)
    have hjjq : j = jq := job_eq_of_id_eq hnd hj hjq (by rw [hidq, hjqid])
    rcases hterm with h | h <;> rw [hjjq, hjqst] at h <;> exact JobStatus.noConfusion h
  | finish_ok id jc hjc hjcid hjcst =>
    apply mem_updateJob_of_ne hj
    intro hidq
    have hjjc : j = jc := job_eq_of_id_eq hnd hj hjc (by rw [hidq, hjcid])
    rcases hterm with h | h <;> rw [hjjc, hjcst] at h <;> exact JobStatus.noConfusion h
  | finish_err id msg jc hjc hjcid hjcst =>
    apply mem_updateJob_of_ne hj
    intro hidq
    have hjjc : j = jc := job_eq_of_id_eq hnd hj hjc (by rw [hidq, hjcid])
    rcases hterm with h | h <;> rw [hjjc, hjcst] at h <;> exact JobStatus.noConfusion h

/-- No step ever removes a job id from the registry. -/
theorem id_persists_step {s s' : QueueState} (hstep : QStep s s') {j : Job}
    (hj : j ∈ s.jobs) : ∃ j' ∈ s'.jobs, j'.id = j.id := by
  cases hstep with
  | enqueue payload => exact ⟨j, List.mem_append_left _ hj, rfl⟩
  | dequeue id rest hchan =>
    exact ⟨if j.id = id then { j with status := JobStatus.processing } else j,
      @updateJob_mem id (fun j => { j with status := JobStatus.processing }) s.jobs j hj,
      by by_cases h : j.id = id <;> simp [h]⟩
  | finish_ok id jc hjc hjcid hjcst =>
    exact ⟨if j.id = id then
        { j with result := some [("sum", payloadSum j.payload)],
                 status := JobStatus.done } else j,
      @updateJob_mem id
        (fun j => { j with result := some [("sum", payloadSum j.payload)],
                           status := JobStatus.done }) s.jobs j hj,
      by by_cases h : j.id = id <;> simp [h]⟩
  | finish_err id msg jc hjc hjcid hjcst =>
    exact ⟨if j.id = id then
        { j with status := JobStatus.failed, error := some msg } else j,
      @updateJob_mem id
        (fun j => { j with status := JobStatus.failed, error := some msg }) s.jobs j hj,
      by by_cases h : j.id = id <;> simp [h]⟩

theorem terminal_stays_rtg {s s' : QueueState} (hs : Reachable s)
    (h : Relation.ReflTransGen QStep s s') {j : Job} (hj : j ∈ s.jobs)
    (hterm : j.status = JobStatus.done ∨ j.status = JobStatus.failed) :
    j ∈ s'.jobs := by
  induction h with
  | refl => exact hj
  | tail h1 hstep ih =>
    exact terminal_stays_step (reachable_inv (reachable_trans hs h1)) hstep ih hterm

theorem id_persists_rtg {s s' : QueueState}
    (h : Relation.ReflTransGen QStep s s') {j : Job} (hj : j ∈ s.jobs) :
    ∃ j' ∈ s'.jobs, j'.id = j.id := by
  induction h with
  | refl => exact ⟨j, hj, rfl⟩
  | tail _h1 hstep ih =>
    obtain ⟨j1, hj1, hid1⟩ := ih
    obtain ⟨j2, hj2, hid2⟩ := id_persists_step hstep hj1
    exact ⟨j2, hj2, by rw [hid2, hid1]⟩

/-- Snapshot lookup on a registry with distinct ids reports exactly the
    current fields of the registered job. -/
theorem lookupId_snapshot_list (jobs : List Job) (hnd : (jobs.map Job.id).Nodup)
    {j : Job} (hj : j ∈ jobs) :
    lookupId j.id
        (jobs.map (fun j => (j.id, (⟨j.status, j.result, j.error⟩ : JobView)))) =
      some ⟨j.status, j.result, j.error⟩ := by
  induction jobs with
  | nil => simp at hj
  | cons a rest ih =>
    simp only [List.map_cons, List.nodup_cons] at hnd
    rcases List.mem_cons.mp hj with h1 | h1
    · rw [h1]
      simp [lookupId]
    · have hne : ¬ a.id = j.id := by
        intro hh
        exact hnd.1 (hh ▸ List.mem_map_of_mem Job.id h1)
      simp only [List.map_cons, lookupId, if_neg hne]
      exact ih hnd.2 h1

/-! A small concrete trace used by the witnesses: enqueue one job with a
    numeric and a boolean payload value, dequeue it, finish it
    successfully. -/

/-- The payload of spec scenario 3 flavoured with a boolean. -/
def pl0 : List (String × PyValue) :=
  [("x", PyValue.pyInt 3), ("flag", PyValue.pyBool true)]

def job0 : Job := ⟨0, pl0, JobStatus.queued, none, none⟩

def job0processing : Job := ⟨0, pl0, JobStatus.processing, none, none⟩

def job0done : Job :=
  ⟨0, pl0, JobStatus.done, some [("sum", payloadSum pl0)], none⟩

def qs1 : QueueState := (initialQueueState.enqueue pl0).2

def qs2 : QueueState :=
  ⟨updateJob 0 (fun j => { j with status := JobStatus.processing }) qs1.jobs,
    [], qs1.nextId⟩

def qs3 : QueueState :=
  ⟨updateJob 0
    (fun j => { j with result := some [("sum", payloadSum j.payload)],
                       status := JobStatus.done }) qs2.jobs,
    qs2.channel, qs2.nextId⟩

theorem reach_qs1 : Reachable qs1 :=
  Relation.ReflTransGen.single (QStep.enqueue initialQueueState pl0)

theorem job0_mem_qs1 : job0 ∈ qs1.jobs := by decide

theorem step_qs1_qs2 : QStep qs1 qs2 := QStep.dequeue qs1 0 [] rfl

theorem reach_qs2 : Reachable qs2 := reach_qs1.tail step_qs1_qs2

theorem job0processing_mem_qs2 : job0processing ∈ qs2.jobs := by decide

theorem step_qs2_qs3 : QStep qs2 qs3 :=
  QStep.finish_ok qs2 0 job0processing job0processing_mem_qs2 rfl rfl

theorem reach_qs3 : Reachable qs3 := reach_qs2.tail step_qs2_qs3

theorem job0done_mem_qs3 : job0done ∈ qs3.jobs := by
  simp [qs3, qs2, qs1, initialQueueState, QueueState.enqueue, updateJob,
    job0done, job0processing, pl0]

/-- C6: in every reachable execution, a job's status changes only along
    the edges queued to processing and processing to done or failed
    (each step leaves every registered job's status unchanged or moves it
    along one edge); a job in a terminal state is never modified again —
    the identical Job record persists through every later step; and in
    every reachable state, result is populated only on done jobs and
    error only on failed jobs. -/
theorem C6_job_state_machine :
    (∀ s s' : QueueState, Reachable s → QStep s s' →
      ∀ j ∈ s.jobs, ∀ j' ∈ s'.jobs, j.id = j'.id →
        statusEdge j.status j'.status) ∧
    (∀ s s' : QueueState, Reachable s → Relation.ReflTransGen QStep s s' →
      ∀ j ∈ s.jobs, (j.status = JobStatus.done ∨ j.status = JobStatus.failed) →
        j ∈ s'.jobs) ∧
    (∀ s : QueueState, Reachable s → ∀ j ∈ s.jobs,
      (j.result ≠ none → j.status = JobStatus.done) ∧
      (j.error ≠ none → j.status = JobStatus.failed)) := by
  refine ⟨?_, ?_, ?_⟩
  · intro s s' hs hstep j hj j' hj' hid
    exact status_edge_step (reachable_inv hs) hstep hj hj' hid
  · intro s s' hs hrtg j hj hterm
    exact terminal_stays_rtg hs hrtg hj hterm
  · intro s hs j hj
    have hpop := (reachable_inv hs).2.2.2.2 j hj
    exact ⟨hpop.1, hpop.2.1⟩

theorem C6_job_state_machine_witness :
    statusEdge JobStatus.queued JobStatus.processing ∧
    job0done ∈ qs3.jobs ∧
    (job0done.result ≠ none → job0done.status = JobStatus.done) := by
  have h := C6_job_state_machine
  refine ⟨?_, ?_, ?_⟩
  · exact h.1 qs1 qs2 reach_qs1 step_qs1_qs2 job0 job0_mem_qs1 job0processing
      job0processing_mem_qs2 rfl
  · exact h.2.1 qs3 qs3 reach_qs3 Relation.ReflTransGen.refl job0done
      job0done_mem_qs3 (Or.inl rfl)
  · exact (h.2.2 qs3 reach_qs3 job0done job0done_mem_qs3).1

/-- C8: enqueue returns a Job in state queued whose id differs from the
    id of every previously registered job (uuid4 freshness, modelled by
    the monotone counter), and the job is registered before enqueue
    returns, so a snapshot taken on the post-state already reports it as
    queued with empty result and error. -/
theorem C8_enqueue_contract (s : QueueState) (payload : List (String × PyValue))
    (hs : Reachable s) :
    (s.enqueue payload).1.status = JobStatus.queued ∧
    (∀ j ∈ s.jobs, j.id ≠ (s.enqueue payload).1.id) ∧
    (s.enqueue payload).1 ∈ (s.enqueue payload).2.jobs ∧
    lookupId (s.enqueue payload).1.id ((s.enqueue payload).2.snapshot) =
      some ⟨JobStatus.queued, none, none⟩ := by
  have hinv := reachable_inv hs
  have hinv' := qinv_step hinv (QStep.enqueue s payload)
  refine ⟨rfl, ?_, ?_, ?_⟩
  · intro j hj
    have := hinv.2.2.2.1 j hj
    show j.id ≠ s.nextId
    omega
  · exact List.mem_append_right _ (List.mem_singleton_self _)
  · have hmem : (s.enqueue payload).1 ∈ (s.enqueue payload).2.jobs :=
      List.mem_append_right _ (List.mem_singleton_self _)
    exact lookupId_snapshot_list (s.enqueue payload).2.jobs hinv'.1 hmem

theorem C8_enqueue_contract_witness :
    (initialQueueState.enqueue pl0).1.status = JobStatus.queued ∧
    (initialQueueState.enqueue pl0).1 ∈ (initialQueueState.enqueue pl0).2.jobs ∧
    lookupId (initialQueueState.enqueue pl0).1.id
        ((initialQueueState.enqueue pl0).2.snapshot) =
      some ⟨JobStatus.queued, none, none⟩ := by
  have h := C8_enqueue_contract initialQueueState pl0 Relation.ReflTransGen.refl
  exact ⟨h.1, h.2.2.1, h.2.2.2⟩

/-- C9: jobs are never deleted — for every job registered at some
    reachable state, every later state still registers a job with that
    id, and a snapshot of the later state reports that job's current
    status, result and error. -/
theorem C9_registry_persistent_snapshot (s s' : QueueState) (hs : Reachable s)
    (hrtg : Relation.ReflTransGen QStep s s') (j : Job) (hj : j ∈ s.jobs) :
    (∃ j' ∈ s'.jobs, j'.id = j.id) ∧
    (∀ j' ∈ s'.jobs, j'.id = j.id →
      lookupId j.id s'.snapshot = some ⟨j'.status, j'.result, j'.error⟩) := by
  constructor
  · exact id_persists_rtg hrtg hj
  · intro j' hj' hid
    have hinv := reachable_inv (reachable_trans hs hrtg)
    have h := lookupId_snapshot_list s'.jobs hinv.1 hj'
    rw [hid] at h
    exact h

theorem C9_registry_persistent_snapshot_witness :
    lookupId 0 qs3.snapshot =
      some ⟨JobStatus.done, some [("sum", (4 : ℚ))], none⟩ := by
  have hrtg : Relation.ReflTransGen QStep qs1 qs3 :=
    (Relation.ReflTransGen.single step_qs1_qs2).tail step_qs2_qs3
  have h := (C9_registry_persistent_snapshot qs1 qs3 reach_qs1 hrtg job0
    job0_mem_qs1).2 job0done job0done_mem_qs3 rfl
  have h4 : payloadSum pl0 = 4 := by
    norm_num [payloadSum, pl0, isinstance_int_or_float, pyNumericValue]
  show lookupId job0.id qs3.snapshot =
    some ⟨JobStatus.done, some [("sum", (4 : ℚ))], none⟩
  rw [h]
  simp [job0done, h4]

/-! The worker loop as a function of the jobs one worker dequeues and of
    each task's outcome. -/

/-- Outcome of the representative task body for one job: it completes,
    or raises an Exception carrying the given message (str(exc)).
    asyncio.CancelledError is a BaseException and is not caught by the
    except Exception handler; it belongs to the shutdown path, which the
    spec treats as a separate, explicitly noted gap, so it is not an
    outcome of the task itself here. -/
inductive TaskOutcome
  | ok
  | raises (msg : String)
deriving DecidableEq, Repr

/-- queue.py lines 41-50, the try block of the worker on the job it just
    dequeued and marked processing: on success store the sum result and
    the done status; on an Exception store the failed status and the
    message. Total — defined on every outcome, no exception escapes. -/
def workerRunJob (j : Job) : TaskOutcome → Job
  | .ok => { j with result := some [("sum", payloadSum j.payload)],
                    status := JobStatus.done }
  | .raises msg => { j with status := JobStatus.failed, error := some msg }

/-- queue.py lines 35-52, one worker's loop over the successive jobs it
    dequeues, each paired with its task outcome: mark processing, run
    the body, and continue with the rest of the loop whatever the
    outcome was. -/
def workerLoop : List (Job × TaskOutcome) → List Job
  | [] => []
  | (j, o) :: rest =>
    workerRunJob { j with status := JobStatus.processing } o :: workerLoop rest

theorem workerLoop_eq_map (l : List (Job × TaskOutcome)) :
    workerLoop l =
      l.map (fun p => workerRunJob { p.1 with status := JobStatus.processing } p.2) := by
  induction l with
  | nil => rfl
  | cons p rest ih =>
    rcases p with ⟨j, o⟩
    simp [workerLoop, ih]

/-- C7: when the task of the i-th job a worker processes raises, the
    worker records the message as that job's error and marks it failed,
    and the loop is unaffected: the worker still produces an outcome for
    every job of its run — in particular every job after the failing one
    is processed exactly as it would otherwise be — so the exception
    neither reaches the enqueueing caller (enqueue returned long before,
    see C8) nor terminates the worker. -/
theorem C7_worker_error_isolation (l : List (Job × TaskOutcome)) (i : Nat) (j : Job)
    (msg : String) (h : l[i]? = some (j, TaskOutcome.raises msg)) :
    ((workerLoop l).length = l.length) ∧
    ((workerLoop l)[i]? =
      some { j with status := JobStatus.failed, error := some msg }) ∧
    (∀ (k : Nat) (p : Job × TaskOutcome), l[k]? = some p →
      (workerLoop l)[k]? =
        some (workerRunJob { p.1 with status := JobStatus.processing } p.2)) := by
  refine ⟨?_, ?_, ?_⟩
  · rw [workerLoop_eq_map, List.length_map]
  · rw [workerLoop_eq_map, List.getElem?_map, h]
    rfl
  · intro k p hk
    rw [workerLoop_eq_map, List.getElem?_map, hk]
    rfl

def c7JobA : Job := ⟨0, [], JobStatus.queued, none, none⟩

def c7JobB : Job := ⟨1, pl0, JobStatus.queued, none, none⟩

/-- A worker run in which the first task raises and the second succeeds. -/
def c7Trace : List (Job × TaskOutcome) :=
  [(c7JobA, TaskOutcome.raises "boom"), (c7JobB, TaskOutcome.ok)]

theorem C7_worker_error_isolation_witness :
    ((workerLoop c7Trace).length = 2) ∧
    ((workerLoop c7Trace)[0]? =
      some ⟨0, [], JobStatus.failed, none, some "boom"⟩) ∧
    ((workerLoop c7Trace)[1]? =
      some ⟨1, pl0, JobStatus.done, some [("sum", (4 : ℚ))], none⟩) := by
  have h := C7_worker_error_isolation c7Trace 0 c7JobA "boom" rfl
  refine ⟨h.1, h.2.1, ?_⟩
  have h2 := h.2.2 1 (c7JobB, TaskOutcome.ok) rfl
  rw [h2]
  norm_num [workerRunJob, c7JobB, payloadSum, pl0, isinstance_int_or_float,
    pyNumericValue]

/-! The numeric aggregation of the representative task, checked against
    the claim's own description of it. -/

/-- Membership test as the claim words it: the value is of Python type
    int, float, or bool (modelled from the claim's text, for comparison
    with isinstance_int_or_float from the code). -/
def claimIsNumericType : PyValue → Bool
  | .pyInt _ => true
  | .pyFloat _ => true
  | .pyBool _ => true
  | _ => false

/-- Numeric contribution as the claim words it: ints and floats denote
    themselves, True contributes 1 and False contributes 0 (modelled
    from the claim's text). -/
def claimNumericValue : PyValue → ℚ
  | .pyInt n => (n : ℚ)
  | .pyFloat q => q
  | .pyBool b => if b then 1 else 0
  | _ => 0

/-- The sum the claim describes: over all payload values of type int,
    float, or bool, with booleans counted as 1 or 0 (modelled from the
    claim's text). -/
def claimSum (payload : List (String × PyValue)) : ℚ :=
  (((payload.map Prod.snd).filter claimIsNumericType).map claimNumericValue).sum

theorem foldl_add_eq_sum (f : PyValue → ℚ) (l : List PyValue) (a : ℚ) :
    l.foldl (fun acc v => acc + f v) a = a + (l.map f).sum := by
  induction l generalizing a with
  | nil => simp
  | cons x rest ih => simp [List.foldl_cons, ih, add_assoc]

/-- C10: the sum the worker computes is exactly the claim's sum — every
    payload value of Python type int, float or bool participates, with
    True as 1 and False as 0, because isinstance(v, (int, float)) admits
    bool as a subtype of int; every job completed by a worker in any
    reachable execution carries result containing exactly that sum under
    the key sum; and the example payload x = 3 with flag = True sums
    to 4. -/
theorem C10_result_sum_includes_bool :
    (∀ payload : List (String × PyValue), payloadSum payload = claimSum payload) ∧
    (∀ s : QueueState, Reachable s → ∀ j ∈ s.jobs, j.status = JobStatus.done →
      j.result = some [("sum", payloadSum j.payload)]) ∧
    payloadSum pl0 = 4 := by
  refine ⟨?_, ?_, ?_⟩
  · intro payload
    unfold payloadSum claimSum
    rw [foldl_add_eq_sum, zero_add]
    have hpred : isinstance_int_or_float = claimIsNumericType := by
      funext v
      cases v <;> rfl
    have hval : pyNumericValue = claimNumericValue := by
      funext v
      cases v <;> rfl
    rw [hpred, hval]
  · intro s hs j hj hdone
    exact ((reachable_inv hs).2.2.2.2 j hj).2.2 hdone
  · norm_num [payloadSum, pl0, isinstance_int_or_float, pyNumericValue]

theorem C10_result_sum_includes_bool_witness :
    job0done.result = some [("sum", payloadSum pl0)] ∧ payloadSum pl0 = 4 := by
  have h := C10_result_sum_includes_bool
  exact ⟨h.2.1 qs3 reach_qs3 job0done job0done_mem_qs3 rfl, h.2.2⟩

end SystemDesign
